import Mathlib

/-!
Verification development for the `resource` package of the pulumi/lumi repository
(`pkg/resource/properties.go` and `pkg/resource/rpc.go`).

The Go `PropertyValue` is a boxed tagged union over nine variants; here it is a
proper sum type.  Go's `PropertyMap` is a `map[PropertyKey]PropertyValue`; every
externally observed iteration goes through the `StablePropertyKeys` utility,
which returns the keys in sorted order.  We therefore model a `PropertyMap` as
the association list of its entries in that stable order: unique keys, and the
list order is the deterministic (lexicographic) key order.  Wire structures
(`structpb.Struct` / `structpb.Value`) are modelled the same way, with an extra
`invalidKind` constructor standing for a `structpb.Value` whose `Kind` field is
nil or of an unrecognized dynamic type.

Go float64 payloads are only ever carried through these functions, never
computed with, so the number payload is modelled by an opaque integer stand-in.

Fatal faults (`contract.Assertf` / `contract.Failf` panics) are modelled by the
`Except Fault` error channel; recoverable accessor errors by `Except AccErr`.
-/

namespace Lumi

/-- URN is the abstract, durable resource identity (Go `resource.URN`, a string). -/
abbrev URN := String

/-- ID is the provider-assigned resource identifier (Go `resource.ID`, a string). -/
abbrev ID := String

/-- PropertyKey is the name of a property (Go `PropertyKey`, a validated name string). -/
abbrev PropertyKey := String

mutual

/-- The nine-variant tagged union of Go `PropertyValue` (`properties.go`).
`computed` and `output` carry the wrapped eventual placeholder value
(Go `Computed`/`Output`, whose `Eventual()` returns the wrapped value). -/
inductive PropertyValue where
  | null
  | bool (b : Bool)
  | number (n : Int)
  | str (s : String)
  | array (elems : PVList)
  | object (entries : PropertyMap)
  | resource (urn : URN)
  | computed (eventual : PropertyValue)
  | output (eventual : PropertyValue)

/-- A list of property values (Go `[]PropertyValue`). -/
inductive PVList where
  | nil
  | cons (head : PropertyValue) (tail : PVList)

/-- A property map in canonical form: its entries listed in the stable
(deterministic, lexicographic) key order produced by Go's `StablePropertyKeys`
utility, with unique keys (Go map invariant). -/
inductive PropertyMap where
  | empty
  | cons (key : PropertyKey) (value : PropertyValue) (rest : PropertyMap)

end

namespace PropertyValue

/-- Go `PropertyValue.IsNull`. -/
def IsNull : PropertyValue → Bool
  | .null => true
  | _ => false

/-- Go `PropertyValue.IsBool`. -/
def IsBool : PropertyValue → Bool
  | .bool _ => true
  | _ => false

/-- Go `PropertyValue.IsNumber`. -/
def IsNumber : PropertyValue → Bool
  | .number _ => true
  | _ => false

/-- Go `PropertyValue.IsString`. -/
def IsString : PropertyValue → Bool
  | .str _ => true
  | _ => false

/-- Go `PropertyValue.IsArray`. -/
def IsArray : PropertyValue → Bool
  | .array _ => true
  | _ => false

/-- Go `PropertyValue.IsObject`. -/
def IsObject : PropertyValue → Bool
  | .object _ => true
  | _ => false

/-- Go `PropertyValue.IsResource`. -/
def IsResource : PropertyValue → Bool
  | .resource _ => true
  | _ => false

/-- Go `PropertyValue.IsComputed`. -/
def IsComputed : PropertyValue → Bool
  | .computed _ => true
  | _ => false

/-- Go `PropertyValue.IsOutput`. -/
def IsOutput : PropertyValue → Bool
  | .output _ => true
  | _ => false

/-- Go `PropertyValue.BoolValue`.  In Go a wrong-variant extraction is a fatal
type-assertion panic; callers always predicate-check first, so the default
branch is never reached in guarded use. -/
def BoolValue : PropertyValue → Bool
  | .bool b => b
  | _ => false

/-- Go `PropertyValue.NumberValue` (guarded use only, see `BoolValue`). -/
def NumberValue : PropertyValue → Int
  | .number n => n
  | _ => 0

/-- Go `PropertyValue.StringValue` (guarded use only, see `BoolValue`). -/
def StringValue : PropertyValue → String
  | .str s => s
  | _ => ""

/-- Go `PropertyValue.ArrayValue` (guarded use only, see `BoolValue`). -/
def ArrayValue : PropertyValue → PVList
  | .array l => l
  | _ => .nil

/-- Go `PropertyValue.ObjectValue` (guarded use only, see `BoolValue`). -/
def ObjectValue : PropertyValue → PropertyMap
  | .object m => m
  | _ => .empty

/-- Go `PropertyValue.ResourceValue` (guarded use only, see `BoolValue`). -/
def ResourceValue : PropertyValue → URN
  | .resource u => u
  | _ => ""

/-- Go `PropertyValue.ComputedValue().Eventual()` (guarded use only): the
wrapped placeholder value of a computed property. -/
def ComputedValue : PropertyValue → PropertyValue
  | .computed e => e
  | _ => .null

/-- Go `PropertyValue.OutputValue().Eventual()` (guarded use only): the
wrapped placeholder value of an output property. -/
def OutputValue : PropertyValue → PropertyValue
  | .output e => e
  | _ => .null

end PropertyValue

/-- Conversion of the modelled value list to a Lean list, for stating
element-wise properties. -/
def PVList.toList : PVList → List PropertyValue
  | .nil => []
  | .cons v rest => v :: rest.toList

/-- Lookup of a key in a property map (models Go map indexing `m[k]`). -/
def PropertyMap.lookup : PropertyMap → PropertyKey → Option PropertyValue
  | .empty, _ => none
  | .cons k v rest, key => if key = k then some v else rest.lookup key

/-- The keys of a property map, in stable order (models `StablePropertyKeys`). -/
def PropertyMap.keys : PropertyMap → List PropertyKey
  | .empty => []
  | .cons k _ rest => k :: rest.keys

mutual

/-- Go `PropertyValue.AllResources` (`properties.go`): collects every URN found
in the tree, recursing through arrays and objects only; all other variants
(including computed/output) contribute nothing. -/
def PropertyValue.AllResources : PropertyValue → Finset URN
  | .resource m => {m}
  | .array arr => PVList.AllResources arr
  | .object obj => PropertyMap.AllResources obj
  | _ => ∅

/-- The element loop of `PropertyValue.AllResources` for arrays. -/
def PVList.AllResources : PVList → Finset URN
  | .nil => ∅
  | .cons v rest => v.AllResources ∪ PVList.AllResources rest

/-- Go `PropertyMap.AllResources`: union of the per-value URN sets. -/
def PropertyMap.AllResources : PropertyMap → Finset URN
  | .empty => ∅
  | .cons _ v rest => v.AllResources ∪ PropertyMap.AllResources rest

end

mutual

/-- Go `PropertyValue.ReplaceResources` (`properties.go`): rebuilds the tree,
replacing every resource URN via the updater; arrays and objects are rebuilt,
every other variant is returned unchanged. -/
def PropertyValue.ReplaceResources : PropertyValue → (URN → URN) → PropertyValue
  | .resource m, updater => .resource (updater m)
  | .array arr, updater => .array (PVList.ReplaceResources arr updater)
  | .object obj, updater => .object (PropertyMap.ReplaceResources obj updater)
  | v, _ => v

/-- The element loop of `PropertyValue.ReplaceResources` for arrays. -/
def PVList.ReplaceResources : PVList → (URN → URN) → PVList
  | .nil, _ => .nil
  | .cons v rest, updater =>
      .cons (v.ReplaceResources updater) (PVList.ReplaceResources rest updater)

/-- Go `PropertyMap.ReplaceResources`: rebuilds the map entry-wise. -/
def PropertyMap.ReplaceResources : PropertyMap → (URN → URN) → PropertyMap
  | .empty, _ => .empty
  | .cons k v rest, updater =>
      .cons k (v.ReplaceResources updater) (PropertyMap.ReplaceResources rest updater)

end

/-- The recoverable accessor error channel (`properties.go`): Go's `*ReqError`
(required property missing, carrying the key) versus the generic
`errors.Errorf` type-mismatch error (carrying the key and the expected kind
from the message text). -/
inductive AccErr where
  | required (key : PropertyKey)
  | typeMismatch (key : PropertyKey) (expected : String)
deriving DecidableEq

/-- Go `IsReqError`: distinguishes the required-missing error from any other. -/
def IsReqError : AccErr → Bool
  | .required _ => true
  | _ => false

/-- The shared body of the Go `<Kind>OrErr(k, req)` accessors: each of the
eight accessors in `properties.go` is this pattern verbatim with its own
variant predicate and extractor.  `if v, has := m[k]; has && !v.IsNull()`
type-checks the value; otherwise a required-missing error or `nil, nil`. -/
def KindOrErr {α : Type} (isKind : PropertyValue → Bool) (value : PropertyValue → α)
    (expected : String) (m : PropertyMap) (k : PropertyKey) (req : Bool) :
    Except AccErr (Option α) :=
  match m.lookup k with
  | some v =>
      if v.IsNull then
        if req then .error (.required k) else .ok none
      else if isKind v then .ok (some (value v))
      else .error (.typeMismatch k expected)
  | none => if req then .error (.required k) else .ok none

/-- Go `PropertyMap.BoolOrErr`. -/
def PropertyMap.BoolOrErr (m : PropertyMap) (k : PropertyKey) (req : Bool) :
    Except AccErr (Option Bool) :=
  KindOrErr PropertyValue.IsBool PropertyValue.BoolValue "bool" m k req

/-- Go `PropertyMap.NumberOrErr`. -/
def PropertyMap.NumberOrErr (m : PropertyMap) (k : PropertyKey) (req : Bool) :
    Except AccErr (Option Int) :=
  KindOrErr PropertyValue.IsNumber PropertyValue.NumberValue "number" m k req

/-- Go `PropertyMap.StringOrErr`. -/
def PropertyMap.StringOrErr (m : PropertyMap) (k : PropertyKey) (req : Bool) :
    Except AccErr (Option String) :=
  KindOrErr PropertyValue.IsString PropertyValue.StringValue "string" m k req

/-- Go `PropertyMap.ArrayOrErr`. -/
def PropertyMap.ArrayOrErr (m : PropertyMap) (k : PropertyKey) (req : Bool) :
    Except AccErr (Option PVList) :=
  KindOrErr PropertyValue.IsArray PropertyValue.ArrayValue "array" m k req

/-- Go `PropertyMap.ObjectOrErr`. -/
def PropertyMap.ObjectOrErr (m : PropertyMap) (k : PropertyKey) (req : Bool) :
    Except AccErr (Option PropertyMap) :=
  KindOrErr PropertyValue.IsObject PropertyValue.ObjectValue "object" m k req

/-- Go `PropertyMap.ResourceOrErr`. -/
def PropertyMap.ResourceOrErr (m : PropertyMap) (k : PropertyKey) (req : Bool) :
    Except AccErr (Option URN) :=
  KindOrErr PropertyValue.IsResource PropertyValue.ResourceValue "object" m k req

/-- Go `PropertyMap.ComputedOrErr` (the returned `Computed` wrapper is
represented by its wrapped eventual value). -/
def PropertyMap.ComputedOrErr (m : PropertyMap) (k : PropertyKey) (req : Bool) :
    Except AccErr (Option PropertyValue) :=
  KindOrErr PropertyValue.IsComputed PropertyValue.ComputedValue "object" m k req

/-- Go `PropertyMap.OutputOrErr` (the returned `Output` wrapper is
represented by its wrapped eventual value). -/
def PropertyMap.OutputOrErr (m : PropertyMap) (k : PropertyKey) (req : Bool) :
    Except AccErr (Option PropertyValue) :=
  KindOrErr PropertyValue.IsOutput PropertyValue.OutputValue "object" m k req

mutual

/-- The wire value (`structpb.Value`, `rpc.go`): the six JSON-like kinds, plus
`invalidKind` standing for a value whose `Kind` field is nil or of an
unrecognized dynamic type (possible on the wire, never produced by marshaling). -/
inductive WireValue where
  | nullV
  | boolV (b : Bool)
  | numberV (n : Int)
  | stringV (s : String)
  | listV (values : WVList)
  | structV (fields : WireStruct)
  | invalidKind

/-- A wire value list (`structpb.ListValue.Values`). -/
inductive WVList where
  | nil
  | cons (head : WireValue) (tail : WVList)

/-- The field container of a wire struct (`structpb.Struct.Fields`), as an
association list; marshaling emits the fields in stable key order. -/
inductive WireStruct where
  | empty
  | cons (key : String) (value : WireValue) (rest : WireStruct)

end

/-- The keys of a wire struct, in field order. -/
def WireStruct.keys : WireStruct → List String
  | .empty => []
  | .cons k _ rest => k :: rest.keys

/-- Lookup of a field in a wire struct (models Go map indexing `Fields[k]`;
a missing key yields Go's zero value, a nil pointer, modelled by `none`). -/
def WireStruct.lookup : WireStruct → String → Option WireValue
  | .empty, _ => none
  | .cons k v rest, key => if key = k then some v else rest.lookup key

/-- Go `MarshalOptions` (`rpc.go`). -/
structure MarshalOptions where
  PermitOlds : Bool := false
  RawURNs : Bool := false

/-- Modelled from the spec: the resource object found in the Context's
current-resources map; the only part of it used here is its provider `ID()`
(the `Resource` interface itself is declared outside the given sources). -/
structure Resource where
  id : ID

/-- Modelled from the spec: the read-only resolution `Context` consumed by
marshaling (declared outside the given sources).  `URNRes` maps a URN to the
current resource carrying its provider ID and `URNOldIDs` maps a URN to a
prior-deployment provider ID, per spec section 6. -/
structure Context where
  URNRes : URN → Option Resource
  URNOldIDs : URN → Option ID

/-- The fatal-fault channel: `contract.Assertf` / `contract.Failf` panics in
`rpc.go`, modelled as errors. -/
inductive Fault where
  | nilContext (urn : URN)
  | urnNotFound (urn : URN)
  | emptyID (urn : URN)
  | finalMarshalUnknowns
  | unrecognizedWireKind
deriving DecidableEq

mutual

/-- Go `MarshalPropertyValue` (`rpc.go`): marshals one property value into its
wire form together with the known flag (true = known, false = unknown). -/
def MarshalPropertyValue (ctx : Option Context) (v : PropertyValue)
    (opts : MarshalOptions) : Except Fault (WireValue × Bool) :=
  match v with
  | .null => .ok (.nullV, true)
  | .bool b => .ok (.boolV b, true)
  | .number n => .ok (.numberV n, true)
  | .str s => .ok (.stringV s, true)
  | .array elems =>
      match MarshalPropertyValueElems ctx elems opts with
      | .error f => .error f
      | .ok (ws, outcome) => .ok (.listV ws, outcome)
  | .object obj =>
      match MarshalPropertiesWithUnknowns ctx obj opts with
      | .error f => .error f
      | .ok (fields, unks) => .ok (.structV fields, unks.isEmpty)
  | .resource m =>
      if opts.RawURNs then .ok (.stringV m, true)
      else
        match ctx with
        | none => .error (.nilContext m)
        | some c =>
            match c.URNRes m with
            | some res =>
                if res.id = "" then .error (.emptyID m)
                else .ok (.stringV res.id, true)
            | none =>
                match c.URNOldIDs m with
                | some oldid =>
                    if opts.PermitOlds then
                      if oldid = "" then .error (.emptyID m)
                      else .ok (.stringV oldid, true)
                    else .error (.urnNotFound m)
                | none => .error (.urnNotFound m)
  | .computed eventual =>
      match MarshalPropertyValue ctx eventual opts with
      | .error f => .error f
      | .ok (w, _) => .ok (w, false)
  | .output eventual =>
      match MarshalPropertyValue ctx eventual opts with
      | .error f => .error f
      | .ok (w, _) => .ok (w, false)

/-- The element loop of `MarshalPropertyValue`'s array case: marshals each
element in order, and the outcome flag is the conjunction of the elements'
known flags. -/
def MarshalPropertyValueElems (ctx : Option Context) (elems : PVList)
    (opts : MarshalOptions) : Except Fault (WVList × Bool) :=
  match elems with
  | .nil => .ok (.nil, true)
  | .cons e rest =>
      match MarshalPropertyValue ctx e opts with
      | .error f => .error f
      | .ok (we, known) =>
          match MarshalPropertyValueElems ctx rest opts with
          | .error f => .error f
          | .ok (ws, outcome) => .ok (.cons we ws, known && outcome)

/-- Go `MarshalPropertiesWithUnknowns` (`rpc.go`): iterates the entries in
stable key order; an entry whose value is an Output variant is always skipped;
every other entry is marshaled and its key recorded in the unknown-key list
when its value marshaled unknown.  Go's nil `unk` map corresponds to `[]`. -/
def MarshalPropertiesWithUnknowns (ctx : Option Context) (props : PropertyMap)
    (opts : MarshalOptions) : Except Fault (WireStruct × List PropertyKey) :=
  match props with
  | .empty => .ok (.empty, [])
  | .cons k v rest =>
      if v.IsOutput then MarshalPropertiesWithUnknowns ctx rest opts
      else
        match MarshalPropertyValue ctx v opts with
        | .error f => .error f
        | .ok (mv, known) =>
            match MarshalPropertiesWithUnknowns ctx rest opts with
            | .error f => .error f
            | .ok (fields, unk) =>
                .ok (.cons k mv fields, if known then unk else k :: unk)

end

/-- Go `MarshalProperties` (`rpc.go`): marshals and then asserts (fatal if
violated) that no unknown properties were encountered. -/
def MarshalProperties (ctx : Option Context) (props : PropertyMap)
    (opts : MarshalOptions) : Except Fault WireStruct :=
  match MarshalPropertiesWithUnknowns ctx props opts with
  | .error f => .error f
  | .ok (pstr, unks) =>
      if unks.isEmpty then .ok pstr else .error .finalMarshalUnknowns

/-- Strict lexicographic order on keys, computed on the character list (the
same order as `String.lt`, by `String.lt_iff_toList_lt`). -/
def keyLt (a b : String) : Bool :=
  decide (a.toList < b.toList)

/-- Reflexive lexicographic order on keys. -/
def keyLe (a b : String) : Bool :=
  keyLt a b || decide (a = b)

/-- Insertion of an entry into a key-sorted property map (helper for the key
sort performed by `UnmarshalProperties`). -/
def PropertyMap.insertSorted (k : PropertyKey) (v : PropertyValue) :
    PropertyMap → PropertyMap
  | .empty => .cons k v .empty
  | .cons k2 v2 rest =>
      if keyLe k k2 then .cons k v (.cons k2 v2 rest)
      else .cons k2 v2 (insertSorted k v rest)

/-- Sorting of a property map by key (models Go's `sort.Strings(keys)` in
`UnmarshalProperties`: the resulting Go map is canonically represented with
its entries in sorted key order). -/
def PropertyMap.sortByKey : PropertyMap → PropertyMap
  | .empty => .empty
  | .cons k v rest => (sortByKey rest).insertSorted k v

mutual

/-- The kind dispatch of Go `UnmarshalPropertyValue` (`rpc.go`) on a non-nil
wire value: the scalar kinds map 1:1, a list maps to an array element-wise, a
struct maps to an object via `UnmarshalProperties`, and a nil or unrecognized
`Kind` is a fatal fault (`contract.Failf`). -/
def UnmarshalWireValue : WireValue → Except Fault PropertyValue
  | .nullV => .ok .null
  | .boolV b => .ok (.bool b)
  | .numberV n => .ok (.number n)
  | .stringV s => .ok (.str s)
  | .listV l =>
      match UnmarshalWireValueElems l with
      | .error f => .error f
      | .ok vs => .ok (.array vs)
  | .structV fs =>
      match UnmarshalWireStructFields fs with
      | .error f => .error f
      | .ok m => .ok (.object m.sortByKey)
  | .invalidKind => .error .unrecognizedWireKind

/-- The element loop of `UnmarshalPropertyValue`'s list case. -/
def UnmarshalWireValueElems : WVList → Except Fault PVList
  | .nil => .ok .nil
  | .cons w rest =>
      match UnmarshalWireValue w with
      | .error f => .error f
      | .ok v =>
          match UnmarshalWireValueElems rest with
          | .error f => .error f
          | .ok vs => .ok (.cons v vs)

/-- The field loop of Go `UnmarshalProperties`: converts every field of the
struct.  Go builds an (unordered) map and enumerates its keys sorted; here the
fields are converted in wire order and the resulting canonical map is obtained
by `sortByKey` (the sort affects only which of several faults surfaces first,
not the resulting map). -/
def UnmarshalWireStructFields : WireStruct → Except Fault PropertyMap
  | .empty => .ok .empty
  | .cons k w rest =>
      match UnmarshalWireValue w with
      | .error f => .error f
      | .ok v =>
          match UnmarshalWireStructFields rest with
          | .error f => .error f
          | .ok m => .ok (.cons k v m)

end

/-- Go `UnmarshalProperties` (`rpc.go`): a nil struct yields the empty map;
otherwise every field is converted and the keys are sorted lexicographically,
yielding the canonical sorted map. -/
def UnmarshalProperties (props : Option WireStruct) : Except Fault PropertyMap :=
  match props with
  | none => .ok .empty
  | some fs =>
      match UnmarshalWireStructFields fs with
      | .error f => .error f
      | .ok m => .ok m.sortByKey

/-- Go `UnmarshalPropertyValue` (`rpc.go`): the argument is a pointer; for a
nil pointer the kind dispatch is skipped and `NewNullProperty()` is returned. -/
def UnmarshalPropertyValue (v : Option WireValue) : Except Fault PropertyValue :=
  match v with
  | none => .ok .null
  | some w => UnmarshalWireValue w

mutual

/-- A Computed variant occurs at the root or nested inside arrays/objects
(the containment notion of claims C1 and C5: nesting through arrays and
objects; an Output placeholder is skipped or uniformly unknown on its own). -/
def PropertyValue.containsComputed : PropertyValue → Bool
  | .computed _ => true
  | .array l => PVList.containsComputed l
  | .object m => PropertyMap.containsComputed m
  | _ => false

/-- Some element of the list contains a Computed variant. -/
def PVList.containsComputed : PVList → Bool
  | .nil => false
  | .cons v rest => v.containsComputed || PVList.containsComputed rest

/-- Some entry value of the map contains a Computed variant. -/
def PropertyMap.containsComputed : PropertyMap → Bool
  | .empty => false
  | .cons _ v rest => v.containsComputed || PropertyMap.containsComputed rest

end

mutual

/-- No Computed and no Output variant occurs anywhere in the tree. -/
def PropertyValue.noComputedOrOutput : PropertyValue → Bool
  | .computed _ => false
  | .output _ => false
  | .array l => PVList.noComputedOrOutput l
  | .object m => PropertyMap.noComputedOrOutput m
  | _ => true

/-- No element of the list holds a Computed or Output variant anywhere. -/
def PVList.noComputedOrOutput : PVList → Bool
  | .nil => true
  | .cons v rest => v.noComputedOrOutput && PVList.noComputedOrOutput rest

/-- No entry value of the map holds a Computed or Output variant anywhere. -/
def PropertyMap.noComputedOrOutput : PropertyMap → Bool
  | .empty => true
  | .cons _ v rest => v.noComputedOrOutput && PropertyMap.noComputedOrOutput rest

end

mutual

/-- The tree is pure JSON-like data: only Null/Bool/Number/String/Array/Object
variants, no Resource, Computed, or Output anywhere. -/
def PropertyValue.IsPureJSON : PropertyValue → Bool
  | .null => true
  | .bool _ => true
  | .number _ => true
  | .str _ => true
  | .array l => PVList.IsPureJSON l
  | .object m => PropertyMap.IsPureJSON m
  | .resource _ => false
  | .computed _ => false
  | .output _ => false

/-- Every element of the list is pure JSON-like data. -/
def PVList.IsPureJSON : PVList → Bool
  | .nil => true
  | .cons v rest => v.IsPureJSON && PVList.IsPureJSON rest

/-- Every entry value of the map is pure JSON-like data. -/
def PropertyMap.IsPureJSON : PropertyMap → Bool
  | .empty => true
  | .cons _ v rest => v.IsPureJSON && PropertyMap.IsPureJSON rest

end

/-- The entry list is strictly ascending by key: the canonical representation
of a Go map listed in the stable (sorted, duplicate-free) key order. -/
def PropertyMap.keysAscending : PropertyMap → Bool
  | .empty => true
  | .cons _ _ .empty => true
  | .cons k1 _ (.cons k2 v2 rest) =>
      keyLt k1 k2 && keysAscending (.cons k2 v2 rest)

mutual

/-- Every object nested in the tree is in canonical form (entries listed in
strictly ascending key order), the modelling invariant of Go maps. -/
def PropertyValue.canonicalKeys : PropertyValue → Bool
  | .array l => PVList.canonicalKeys l
  | .object m => m.keysAscending && PropertyMap.canonicalKeys m
  | .computed e => e.canonicalKeys
  | .output e => e.canonicalKeys
  | _ => true

/-- Every element of the list has canonical nested objects. -/
def PVList.canonicalKeys : PVList → Bool
  | .nil => true
  | .cons v rest => v.canonicalKeys && PVList.canonicalKeys rest

/-- Every entry value of the map has canonical nested objects. -/
def PropertyMap.canonicalKeys : PropertyMap → Bool
  | .empty => true
  | .cons _ v rest => v.canonicalKeys && PropertyMap.canonicalKeys rest

end

/-- The behavioral contract of a `<Kind>OrErr(k, req)` accessor (spec section
4.2): the typed value when present with the right kind; `nil` without error
when absent-or-Null and not required; the distinguished required-missing error
when absent-or-Null and required; a type-mismatch error when present with a
different non-Null kind. -/
structure OrErrBehavior {α : Type} (isKind : PropertyValue → Bool)
    (value : PropertyValue → α)
    (f : PropertyMap → PropertyKey → Bool → Except AccErr (Option α)) : Prop where
  typedPresent : ∀ m k req v, m.lookup k = some v → v.IsNull = false →
      isKind v = true → f m k req = .ok (some (value v))
  absentOptional : ∀ m k,
      (m.lookup k = none ∨ ∃ v, m.lookup k = some v ∧ v.IsNull = true) →
      f m k false = .ok none
  absentRequired : ∀ m k,
      (m.lookup k = none ∨ ∃ v, m.lookup k = some v ∧ v.IsNull = true) →
      f m k true = .error (.required k)
  wrongKind : ∀ m k req v, m.lookup k = some v → v.IsNull = false →
      isKind v = false → ∃ e, f m k req = .error (.typeMismatch k e)

/-- A concrete resolution context used by witness theorems: URN "u1" is a
current resource with provider ID "i-123", URN "old" has prior-deployment
ID "i-old". -/
def exampleContext : Context :=
  ⟨fun u => if u = "u1" then some ⟨"i-123"⟩ else none,
   fun u => if u = "old" then some "i-old" else none⟩

theorem KindOrErr_behavior {α : Type} (isKind : PropertyValue → Bool)
    (value : PropertyValue → α) (expected : String) :
    OrErrBehavior isKind value (KindOrErr isKind value expected) := by
  constructor
  · intro m k req v hl hn hk
    simp [KindOrErr, hl, hn, hk]
  · intro m k h
    rcases h with h | ⟨v, hl, hn⟩
    · simp [KindOrErr, h]
    · simp [KindOrErr, hl, hn]
  · intro m k h
    rcases h with h | ⟨v, hl, hn⟩
    · simp [KindOrErr, h]
    · simp [KindOrErr, hl, hn]
  · intro m k req v hl hn hk
    exact ⟨expected, by simp [KindOrErr, hl, hn, hk]⟩

/-- Claim C7: each `<Kind>OrErr(k, required)` accessor returns the typed value
with no error when the key is present with the right kind, `nil` with no error
when absent-or-Null and not required, the required-missing error carrying the
key when absent-or-Null and required, and a type-mismatch error when present
with a different non-Null kind; the required-missing error is distinguishable
from the type-mismatch error. -/
theorem c7_accessor_contract :
    OrErrBehavior PropertyValue.IsBool PropertyValue.BoolValue PropertyMap.BoolOrErr ∧
    OrErrBehavior PropertyValue.IsNumber PropertyValue.NumberValue PropertyMap.NumberOrErr ∧
    OrErrBehavior PropertyValue.IsString PropertyValue.StringValue PropertyMap.StringOrErr ∧
    OrErrBehavior PropertyValue.IsArray PropertyValue.ArrayValue PropertyMap.ArrayOrErr ∧
    OrErrBehavior PropertyValue.IsObject PropertyValue.ObjectValue PropertyMap.ObjectOrErr ∧
    OrErrBehavior PropertyValue.IsResource PropertyValue.ResourceValue PropertyMap.ResourceOrErr ∧
    OrErrBehavior PropertyValue.IsComputed PropertyValue.ComputedValue PropertyMap.ComputedOrErr ∧
    OrErrBehavior PropertyValue.IsOutput PropertyValue.OutputValue PropertyMap.OutputOrErr ∧
    (∀ k, IsReqError (AccErr.required k) = true) ∧
    (∀ k e, IsReqError (AccErr.typeMismatch k e) = false) ∧
    (∀ k k2 e, AccErr.required k ≠ AccErr.typeMismatch k2 e) :=
  ⟨KindOrErr_behavior _ _ _, KindOrErr_behavior _ _ _, KindOrErr_behavior _ _ _,
   KindOrErr_behavior _ _ _, KindOrErr_behavior _ _ _, KindOrErr_behavior _ _ _,
   KindOrErr_behavior _ _ _, KindOrErr_behavior _ _ _,
   fun _ => rfl, fun _ _ => rfl, fun _ _ _ h => AccErr.noConfusion h⟩

/-- Witness for C7 at concrete inputs: a present bool is returned, a missing
required key yields the required-missing error, a missing optional key yields
`nil` without error, and a present wrong-kind value yields a type-mismatch
error. -/
theorem c7_accessor_contract_witness :
    PropertyMap.BoolOrErr (.cons "a" (.bool true) .empty) "a" true = .ok (some true) ∧
    PropertyMap.StringOrErr .empty "a" true = .error (.required "a") ∧
    PropertyMap.StringOrErr .empty "a" false = .ok none ∧
    (∃ e, PropertyMap.NumberOrErr (.cons "a" (.str "x") .empty) "a" false =
      .error (.typeMismatch "a" e)) := by
  obtain ⟨hb, hn, hs, -, -, -, -, -, -, -, -⟩ := c7_accessor_contract
  exact ⟨hb.typedPresent (.cons "a" (.bool true) .empty) "a" true (.bool true) rfl rfl rfl,
    hs.absentRequired .empty "a" (Or.inl rfl),
    hs.absentOptional .empty "a" (Or.inl rfl),
    hn.wrongKind (.cons "a" (.str "x") .empty) "a" false (.str "x") rfl rfl rfl⟩

/-- Claim C9: ReplaceResources rebuilds the tree structurally, replacing every
Resource URN u by f(u), rebuilding arrays and objects entry-wise, and passing
every other variant through unchanged; on the map
`a -> Resource u1, b -> [Resource u2, (c -> Resource u1)]` with f mapping u1
to u3 it yields `a -> Resource u3, b -> [Resource u2, (c -> Resource u3)]`. -/
theorem c9_replace_resources :
    (∀ (f : URN → URN) u, PropertyValue.ReplaceResources (.resource u) f = .resource (f u)) ∧
    (∀ (f : URN → URN) l, PropertyValue.ReplaceResources (.array l) f =
      .array (PVList.ReplaceResources l f)) ∧
    (∀ (f : URN → URN) hd tl, PVList.ReplaceResources (.cons hd tl) f =
      .cons (hd.ReplaceResources f) (PVList.ReplaceResources tl f)) ∧
    (∀ (f : URN → URN) m, PropertyValue.ReplaceResources (.object m) f =
      .object (PropertyMap.ReplaceResources m f)) ∧
    (∀ (f : URN → URN) k v rest, PropertyMap.ReplaceResources (.cons k v rest) f =
      .cons k (v.ReplaceResources f) (PropertyMap.ReplaceResources rest f)) ∧
    (∀ (f : URN → URN), PropertyValue.ReplaceResources .null f = .null) ∧
    (∀ (f : URN → URN) b, PropertyValue.ReplaceResources (.bool b) f = .bool b) ∧
    (∀ (f : URN → URN) n, PropertyValue.ReplaceResources (.number n) f = .number n) ∧
    (∀ (f : URN → URN) s, PropertyValue.ReplaceResources (.str s) f = .str s) ∧
    (∀ (f : URN → URN) e, PropertyValue.ReplaceResources (.computed e) f = .computed e) ∧
    (∀ (f : URN → URN) e, PropertyValue.ReplaceResources (.output e) f = .output e) ∧
    (PropertyMap.ReplaceResources
      (.cons "a" (.resource "u1")
        (.cons "b" (.array (.cons (.resource "u2")
          (.cons (.object (.cons "c" (.resource "u1") .empty)) .nil))) .empty))
      (fun u => if u = "u1" then "u3" else u) =
      (.cons "a" (.resource "u3")
        (.cons "b" (.array (.cons (.resource "u2")
          (.cons (.object (.cons "c" (.resource "u3") .empty)) .nil))) .empty))) :=
  ⟨fun _ _ => rfl, fun _ _ => rfl, fun _ _ _ => rfl, fun _ _ => rfl,
   fun _ _ _ _ => rfl, fun _ => rfl, fun _ _ => rfl, fun _ _ => rfl,
   fun _ _ => rfl, fun _ _ => rfl, fun _ _ => rfl, rfl⟩

/-- Claim C10: AllResources and ReplaceResources treat Computed and Output
values as opaque leaves: AllResources of a Computed/Output variant is the
empty set and ReplaceResources returns the value unchanged, so a URN nested
inside the eventual placeholder is never collected and never replaced. -/
theorem c10_computed_output_opaque :
    (∀ e, PropertyValue.AllResources (.computed e) = ∅) ∧
    (∀ e, PropertyValue.AllResources (.output e) = ∅) ∧
    (∀ e (f : URN → URN), PropertyValue.ReplaceResources (.computed e) f = .computed e) ∧
    (∀ e (f : URN → URN), PropertyValue.ReplaceResources (.output e) f = .output e) ∧
    (∀ u, PropertyValue.AllResources (.computed (.resource u)) = ∅) ∧
    (∀ u (f : URN → URN),
      PropertyValue.ReplaceResources (.output (.resource u)) f = .output (.resource u)) :=
  ⟨fun _ => rfl, fun _ => rfl, fun _ _ => rfl, fun _ _ => rfl,
   fun _ => rfl, fun _ _ => rfl⟩

/-- Counterexample to claim C6 as stated: for a nil wire value,
`UnmarshalPropertyValue` does not fault; it skips the kind dispatch and
returns the Null property (`rpc.go` lines 174-201: the `contract.Failf` sits
inside the `if v != nil` block, and the function falls through to
`NewNullProperty()`). -/
theorem c6_counterexample_nil_is_not_fatal :
    UnmarshalPropertyValue none = .ok PropertyValue.null := rfl

/-- Claim C6 (amended): UnmarshalPropertyValue maps wire Null/Bool/Number/
String kinds 1:1 to the matching variant, wire List to Array by element-wise
recursion, and wire Struct to Object via UnmarshalProperties; an unrecognized
wire kind is a fatal fault, while a nil wire value returns the Null variant. -/
theorem c6_unmarshal_kind_dispatch :
    (UnmarshalPropertyValue none = .ok .null) ∧
    (UnmarshalPropertyValue (some .nullV) = .ok .null) ∧
    (∀ b, UnmarshalPropertyValue (some (.boolV b)) = .ok (.bool b)) ∧
    (∀ n, UnmarshalPropertyValue (some (.numberV n)) = .ok (.number n)) ∧
    (∀ s, UnmarshalPropertyValue (some (.stringV s)) = .ok (.str s)) ∧
    (∀ l, UnmarshalPropertyValue (some (.listV l)) =
      match UnmarshalWireValueElems l with
      | .error f => .error f
      | .ok vs => .ok (.array vs)) ∧
    (∀ w rest, UnmarshalWireValueElems (.cons w rest) =
      match UnmarshalPropertyValue (some w) with
      | .error f => .error f
      | .ok v =>
          match UnmarshalWireValueElems rest with
          | .error f => .error f
          | .ok vs => .ok (.cons v vs)) ∧
    (∀ fs, UnmarshalPropertyValue (some (.structV fs)) =
      match UnmarshalProperties (some fs) with
      | .error f => .error f
      | .ok m => .ok (.object m)) ∧
    (UnmarshalPropertyValue (some .invalidKind) = .error .unrecognizedWireKind) := by
  refine ⟨rfl, rfl, fun _ => rfl, fun _ => rfl, fun _ => rfl, fun _ => rfl,
    fun _ _ => rfl, fun fs => ?_, rfl⟩
  show UnmarshalWireValue (.structV fs) = _
  cases h : UnmarshalWireStructFields fs <;>
    simp [UnmarshalWireValue, UnmarshalProperties, h]

theorem containsComputed_not_output :
    ∀ (v : PropertyValue), v.containsComputed = true → v.IsOutput = false := by
  intro v h
  cases v <;> simp_all [PropertyValue.containsComputed, PropertyValue.IsOutput]

theorem noComputedOrOutput_not_output :
    ∀ (v : PropertyValue), v.noComputedOrOutput = true → v.IsOutput = false := by
  intro v h
  cases v <;> simp_all [PropertyValue.noComputedOrOutput, PropertyValue.IsOutput]

theorem pureJSON_not_output :
    ∀ (v : PropertyValue), v.IsPureJSON = true → v.IsOutput = false := by
  intro v h
  cases v <;> simp_all [PropertyValue.IsPureJSON, PropertyValue.IsOutput]

theorem marshal_resource_known :
    ∀ (ctx : Option Context) (opts : MarshalOptions) (u : URN) (w : WireValue)
      (kn : Bool),
      MarshalPropertyValue ctx (.resource u) opts = .ok (w, kn) → kn = true := by
  intro ctx opts u w kn hm
  simp only [MarshalPropertyValue] at hm
  repeat' split at hm
  all_goals simp_all

mutual

theorem containsComputed_marshal_unknown :
    ∀ (v : PropertyValue) (ctx : Option Context) (opts : MarshalOptions)
      (w : WireValue) (kn : Bool), v.containsComputed = true →
      MarshalPropertyValue ctx v opts = .ok (w, kn) → kn = false
  | .null, _, _, _, _, hc, _ => by simp [PropertyValue.containsComputed] at hc
  | .bool _, _, _, _, _, hc, _ => by simp [PropertyValue.containsComputed] at hc
  | .number _, _, _, _, _, hc, _ => by simp [PropertyValue.containsComputed] at hc
  | .str _, _, _, _, _, hc, _ => by simp [PropertyValue.containsComputed] at hc
  | .resource _, _, _, _, _, hc, _ => by simp [PropertyValue.containsComputed] at hc
  | .output _, _, _, _, _, hc, _ => by simp [PropertyValue.containsComputed] at hc
  | .computed e, ctx, opts, w, kn, _, hm => by
      rcases h : MarshalPropertyValue ctx e opts with f | ⟨w2, k2⟩ <;>
        simp [MarshalPropertyValue, h] at hm
      exact hm.2
  | .array l, ctx, opts, w, kn, hc, hm => by
      simp only [PropertyValue.containsComputed] at hc
      rcases h : MarshalPropertyValueElems ctx l opts with f | ⟨ws, oc⟩ <;>
        simp [MarshalPropertyValue, h] at hm
      exact hm.2.symm.trans (containsComputed_elems_unknown l ctx opts ws oc hc h)
  | .object m, ctx, opts, w, kn, hc, hm => by
      simp only [PropertyValue.containsComputed] at hc
      rcases h : MarshalPropertiesWithUnknowns ctx m opts with f | ⟨fs, unk⟩ <;>
        simp [MarshalPropertyValue, h] at hm
      have hne := containsComputed_map_unknowns m ctx opts fs unk hc h
      have hemp : unk.isEmpty = false := by
        cases unk with
        | nil => exact absurd rfl hne
        | cons a t => rfl
      exact hm.2.symm.trans hemp

theorem containsComputed_elems_unknown :
    ∀ (l : PVList) (ctx : Option Context) (opts : MarshalOptions) (ws : WVList)
      (oc : Bool), PVList.containsComputed l = true →
      MarshalPropertyValueElems ctx l opts = .ok (ws, oc) → oc = false
  | .nil, _, _, _, _, hc, _ => by simp [PVList.containsComputed] at hc
  | .cons e rest, ctx, opts, ws, oc, hc, hm => by
      simp only [PVList.containsComputed, Bool.or_eq_true] at hc
      rcases h1 : MarshalPropertyValue ctx e opts with f | ⟨we, known⟩ <;>
        simp [MarshalPropertyValueElems, h1] at hm
      rcases h2 : MarshalPropertyValueElems ctx rest opts with f | ⟨ws2, oc2⟩ <;>
        simp [h2] at hm
      rw [← hm.2]
      rcases hc with hc | hc
      · rw [containsComputed_marshal_unknown e ctx opts we known hc h1]
        simp
      · rw [containsComputed_elems_unknown rest ctx opts ws2 oc2 hc h2]
        simp

theorem containsComputed_map_unknowns :
    ∀ (m : PropertyMap) (ctx : Option Context) (opts : MarshalOptions)
      (fields : WireStruct) (unk : List PropertyKey),
      PropertyMap.containsComputed m = true →
      MarshalPropertiesWithUnknowns ctx m opts = .ok (fields, unk) → unk ≠ []
  | .empty, _, _, _, _, hc, _ => by simp [PropertyMap.containsComputed] at hc
  | .cons k v rest, ctx, opts, fields, unk, hc, hm => by
      simp only [PropertyMap.containsComputed, Bool.or_eq_true] at hc
      by_cases ho : v.IsOutput = true
      · have hcv : v.containsComputed = false := by
          cases v <;> simp_all [PropertyValue.IsOutput, PropertyValue.containsComputed]
        rcases hc with hc | hc
        · rw [hcv] at hc; cases hc
        · simp only [MarshalPropertiesWithUnknowns, ho, if_true] at hm
          exact containsComputed_map_unknowns rest ctx opts fields unk hc hm
      · have ho' : v.IsOutput = false := by simpa using ho
        simp only [MarshalPropertiesWithUnknowns, ho', Bool.false_eq_true,
          if_false] at hm
        rcases h1 : MarshalPropertyValue ctx v opts with f | ⟨mv, known⟩ <;>
          simp [h1] at hm
        rcases h2 : MarshalPropertiesWithUnknowns ctx rest opts with f | ⟨fs2, unk2⟩ <;>
          simp [h2] at hm
        rw [← hm.2]
        rcases hc with hc | hc
        · rw [containsComputed_marshal_unknown v ctx opts mv known hc h1]
          simp
        · have hne := containsComputed_map_unknowns rest ctx opts fs2 unk2 hc h2
          cases known <;> simp [hne]

end

theorem lookup_containsComputed_mem_unknowns :
    ∀ (m : PropertyMap) (ctx : Option Context) (opts : MarshalOptions)
      (k : PropertyKey) (v : PropertyValue) (fields : WireStruct)
      (unk : List PropertyKey),
      m.lookup k = some v → v.containsComputed = true →
      MarshalPropertiesWithUnknowns ctx m opts = .ok (fields, unk) → k ∈ unk
  | .empty, _, _, k, v, _, _, hl, _, _ => by simp [PropertyMap.lookup] at hl
  | .cons k2 v2 rest, ctx, opts, k, v, fields, unk, hl, hc, hm => by
      simp only [PropertyMap.lookup] at hl
      by_cases hk : k = k2
      · rw [if_pos hk] at hl
        have hveq : v2 = v := by simpa using hl
        subst hveq
        subst hk
        have ho : v2.IsOutput = false := containsComputed_not_output v2 hc
        simp only [MarshalPropertiesWithUnknowns, ho, Bool.false_eq_true,
          if_false] at hm
        rcases h1 : MarshalPropertyValue ctx v2 opts with f | ⟨mv, known⟩ <;>
          simp [h1] at hm
        rcases h2 : MarshalPropertiesWithUnknowns ctx rest opts with f | ⟨fs2, unk2⟩ <;>
          simp [h2] at hm
        rw [containsComputed_marshal_unknown v2 ctx opts mv known hc h1] at hm
        rw [← hm.2]
        simp
      · rw [if_neg hk] at hl
        by_cases ho : v2.IsOutput = true
        · simp only [MarshalPropertiesWithUnknowns, ho, if_true] at hm
          exact lookup_containsComputed_mem_unknowns rest ctx opts k v fields unk hl hc hm
        · have ho' : v2.IsOutput = false := by simpa using ho
          simp only [MarshalPropertiesWithUnknowns, ho', Bool.false_eq_true,
            if_false] at hm
          rcases h1 : MarshalPropertyValue ctx v2 opts with f | ⟨mv, known⟩ <;>
            simp [h1] at hm
          rcases h2 : MarshalPropertiesWithUnknowns ctx rest opts with f | ⟨fs2, unk2⟩ <;>
            simp [h2] at hm
          have hmem := lookup_containsComputed_mem_unknowns rest ctx opts k v fs2 unk2 hl hc h2
          rw [← hm.2]
          cases known <;> simp [hmem]

mutual

theorem noCompOut_marshal_known :
    ∀ (v : PropertyValue) (ctx : Option Context) (opts : MarshalOptions)
      (w : WireValue) (kn : Bool), v.noComputedOrOutput = true →
      MarshalPropertyValue ctx v opts = .ok (w, kn) → kn = true
  | .null, _, _, _, _, _, hm => by
      simp [MarshalPropertyValue] at hm; exact hm.2
  | .bool _, _, _, _, _, _, hm => by
      simp [MarshalPropertyValue] at hm; exact hm.2
  | .number _, _, _, _, _, _, hm => by
      simp [MarshalPropertyValue] at hm; exact hm.2
  | .str _, _, _, _, _, _, hm => by
      simp [MarshalPropertyValue] at hm; exact hm.2
  | .resource u, ctx, opts, w, kn, _, hm => marshal_resource_known ctx opts u w kn hm
  | .computed _, _, _, _, _, hn, _ => by simp [PropertyValue.noComputedOrOutput] at hn
  | .output _, _, _, _, _, hn, _ => by simp [PropertyValue.noComputedOrOutput] at hn
  | .array l, ctx, opts, w, kn, hn, hm => by
      simp only [PropertyValue.noComputedOrOutput] at hn
      rcases h : MarshalPropertyValueElems ctx l opts with f | ⟨ws, oc⟩ <;>
        simp [MarshalPropertyValue, h] at hm
      exact hm.2.symm.trans (noCompOut_elems_known l ctx opts ws oc hn h)
  | .object m, ctx, opts, w, kn, hn, hm => by
      simp only [PropertyValue.noComputedOrOutput] at hn
      rcases h : MarshalPropertiesWithUnknowns ctx m opts with f | ⟨fs, unk⟩ <;>
        simp [MarshalPropertyValue, h] at hm
      obtain ⟨hu, -⟩ := noCompOut_map_marshal m ctx opts fs unk hn h
      subst hu
      simpa using hm.2.symm

theorem noCompOut_elems_known :
    ∀ (l : PVList) (ctx : Option Context) (opts : MarshalOptions) (ws : WVList)
      (oc : Bool), PVList.noComputedOrOutput l = true →
      MarshalPropertyValueElems ctx l opts = .ok (ws, oc) → oc = true
  | .nil, _, _, _, _, _, hm => by
      simp [MarshalPropertyValueElems] at hm; exact hm.2
  | .cons e rest, ctx, opts, ws, oc, hn, hm => by
      simp only [PVList.noComputedOrOutput, Bool.and_eq_true] at hn
      rcases h1 : MarshalPropertyValue ctx e opts with f | ⟨we, known⟩ <;>
        simp [MarshalPropertyValueElems, h1] at hm
      rcases h2 : MarshalPropertyValueElems ctx rest opts with f | ⟨ws2, oc2⟩ <;>
        simp [h2] at hm
      rw [← hm.2, noCompOut_marshal_known e ctx opts we known hn.1 h1,
        noCompOut_elems_known rest ctx opts ws2 oc2 hn.2 h2]
      rfl

theorem noCompOut_map_marshal :
    ∀ (m : PropertyMap) (ctx : Option Context) (opts : MarshalOptions)
      (fields : WireStruct) (unk : List PropertyKey),
      PropertyMap.noComputedOrOutput m = true →
      MarshalPropertiesWithUnknowns ctx m opts = .ok (fields, unk) →
      unk = [] ∧ WireStruct.keys fields = m.keys
  | .empty, _, _, fields, unk, _, hm => by
      simp [MarshalPropertiesWithUnknowns] at hm
      obtain ⟨h1, h2⟩ := hm
      subst h1; subst h2
      exact ⟨rfl, rfl⟩
  | .cons k v rest, ctx, opts, fields, unk, hn, hm => by
      simp only [PropertyMap.noComputedOrOutput, Bool.and_eq_true] at hn
      have ho : v.IsOutput = false := noComputedOrOutput_not_output v hn.1
      simp only [MarshalPropertiesWithUnknowns, ho, Bool.false_eq_true,
        if_false] at hm
      rcases h1 : MarshalPropertyValue ctx v opts with f | ⟨mv, known⟩ <;>
        simp [h1] at hm
      rcases h2 : MarshalPropertiesWithUnknowns ctx rest opts with f | ⟨fs2, unk2⟩ <;>
        simp [h2] at hm
      obtain ⟨hu2, hk2⟩ := noCompOut_map_marshal rest ctx opts fs2 unk2 hn.2 h2
      rw [noCompOut_marshal_known v ctx opts mv known hn.1 h1] at hm
      rw [← hm.1, ← hm.2]
      subst hu2
      exact ⟨rfl, by simp [WireStruct.keys, PropertyMap.keys, hk2]⟩

end

theorem marshal_keys_subset :
    ∀ (m : PropertyMap) (ctx : Option Context) (opts : MarshalOptions)
      (fields : WireStruct) (unk : List PropertyKey),
      MarshalPropertiesWithUnknowns ctx m opts = .ok (fields, unk) →
      (∀ k, k ∈ WireStruct.keys fields → k ∈ m.keys) ∧
      (∀ k, k ∈ unk → k ∈ m.keys)
  | .empty, _, _, fields, unk, hm => by
      simp [MarshalPropertiesWithUnknowns] at hm
      obtain ⟨h1, h2⟩ := hm
      subst h1; subst h2
      exact ⟨fun k hk => by simp [WireStruct.keys] at hk,
        fun k hk => by simp at hk⟩
  | .cons k2 v rest, ctx, opts, fields, unk, hm => by
      by_cases ho : v.IsOutput = true
      · simp only [MarshalPropertiesWithUnknowns, ho, if_true] at hm
        obtain ⟨hf, hu⟩ := marshal_keys_subset rest ctx opts fields unk hm
        exact ⟨fun k hk => List.mem_cons_of_mem k2 (hf k hk),
          fun k hk => List.mem_cons_of_mem k2 (hu k hk)⟩
      · have ho' : v.IsOutput = false := by simpa using ho
        simp only [MarshalPropertiesWithUnknowns, ho', Bool.false_eq_true,
          if_false] at hm
        rcases h1 : MarshalPropertyValue ctx v opts with f | ⟨mv, known⟩ <;>
          simp [h1] at hm
        rcases h2 : MarshalPropertiesWithUnknowns ctx rest opts with f | ⟨fs2, unk2⟩ <;>
          simp [h2] at hm
        obtain ⟨hf, hu⟩ := marshal_keys_subset rest ctx opts fs2 unk2 h2
        rw [← hm.1, ← hm.2]
        constructor
        · intro k hk
          simp only [WireStruct.keys, List.mem_cons] at hk
          rcases hk with rfl | hk
          · exact List.mem_cons_self k rest.keys
          · exact List.mem_cons_of_mem k2 (hf k hk)
        · intro k hk
          cases known with
          | true =>
              simp only [if_true] at hk
              exact List.mem_cons_of_mem k2 (hu k hk)
          | false =>
              simp only [Bool.false_eq_true, if_false, List.mem_cons] at hk
              rcases hk with rfl | hk
              · exact List.mem_cons_self k rest.keys
              · exact List.mem_cons_of_mem k2 (hu k hk)

theorem marshal_elems_known_iff :
    ∀ (l : PVList) (ctx : Option Context) (opts : MarshalOptions) (ws : WVList)
      (oc : Bool), MarshalPropertyValueElems ctx l opts = .ok (ws, oc) →
      (oc = true ↔ ∀ e ∈ l.toList, ∃ we, MarshalPropertyValue ctx e opts = .ok (we, true))
  | .nil, _, _, ws, oc, hm => by
      simp [MarshalPropertyValueElems] at hm
      simp [PVList.toList, ← hm.2]
  | .cons e rest, ctx, opts, ws, oc, hm => by
      rcases h1 : MarshalPropertyValue ctx e opts with f | ⟨we, known⟩ <;>
        simp [MarshalPropertyValueElems, h1] at hm
      rcases h2 : MarshalPropertyValueElems ctx rest opts with f | ⟨ws2, oc2⟩ <;>
        simp [h2] at hm
      have ih := marshal_elems_known_iff rest ctx opts ws2 oc2 h2
      rw [← hm.2]
      constructor
      · intro hko
        rw [Bool.and_eq_true] at hko
        intro x hx
        simp only [PVList.toList, List.mem_cons] at hx
        rcases hx with rfl | hx
        · exact ⟨we, by rw [h1, hko.1]⟩
        · exact (ih.mp hko.2) x hx
      · intro hall
        obtain ⟨we2, hwe2⟩ := hall e (by simp [PVList.toList])
        have hkn : known = true := by
          have := h1.symm.trans hwe2
          simp at this
          exact this.2
        rw [hkn, Bool.true_and]
        exact ih.mpr fun x hx => hall x (by simp [PVList.toList, hx])

/-- Claim C1: if the value at key k of a property map contains a Computed
variant anywhere in its tree (at the root or nested inside arrays and
objects), then a successful MarshalPropertiesWithUnknowns returns an
unknown-key set containing k, for every context and options. -/
theorem c1_computed_taints_key :
    ∀ (ctx : Option Context) (m : PropertyMap) (opts : MarshalOptions)
      (k : PropertyKey) (v : PropertyValue) (fields : WireStruct)
      (unk : List PropertyKey),
      m.lookup k = some v → v.containsComputed = true →
      MarshalPropertiesWithUnknowns ctx m opts = .ok (fields, unk) → k ∈ unk :=
  fun ctx m opts k v fields unk hl hc hm =>
    lookup_containsComputed_mem_unknowns m ctx opts k v fields unk hl hc hm

/-- Witness for C1: the key "a" holds an array with a Computed element; the
top-level marshal succeeds and its unknown-key set contains "a". -/
theorem c1_computed_taints_key_witness :
    MarshalPropertiesWithUnknowns none
      (.cons "a" (.array (.cons (.computed .null) .nil)) .empty) {} =
      .ok (.cons "a" (.listV (.cons .nullV .nil)) .empty, ["a"]) ∧
    ("a" : PropertyKey) ∈ (["a"] : List PropertyKey) :=
  ⟨rfl,
   c1_computed_taints_key none
     (.cons "a" (.array (.cons (.computed .null) .nil)) .empty) {} "a"
     (.array (.cons (.computed .null) .nil))
     (.cons "a" (.listV (.cons .nullV .nil)) .empty) ["a"] rfl rfl rfl⟩

/-- Claim C4: an entry whose value is an Output variant at the top level of
the map is skipped entirely by MarshalPropertiesWithUnknowns: its key appears
neither among the fields of the returned wire struct nor in the returned
unknown-key set (the key-uniqueness hypothesis is the Go map invariant). -/
theorem c4_top_level_output_skipped :
    ∀ (ctx : Option Context) (m : PropertyMap) (opts : MarshalOptions)
      (k : PropertyKey) (v : PropertyValue) (fields : WireStruct)
      (unk : List PropertyKey),
      m.keys.Nodup → m.lookup k = some v → v.IsOutput = true →
      MarshalPropertiesWithUnknowns ctx m opts = .ok (fields, unk) →
      k ∉ WireStruct.keys fields ∧ k ∉ unk
  | _, .empty, _, k, v, _, _, _, hl, _, _ => by simp [PropertyMap.lookup] at hl
  | ctx, .cons k2 v2 rest, opts, k, v, fields, unk, hnd, hl, ho, hm => by
      rw [PropertyMap.keys, List.nodup_cons] at hnd
      simp only [PropertyMap.lookup] at hl
      by_cases hk : k = k2
      · rw [if_pos hk] at hl
        have hveq : v2 = v := by simpa using hl
        subst hveq
        subst hk
        simp only [MarshalPropertiesWithUnknowns, ho, if_true] at hm
        obtain ⟨hf, hu⟩ := marshal_keys_subset rest ctx opts fields unk hm
        exact ⟨fun hmem => hnd.1 (hf k hmem), fun hmem => hnd.1 (hu k hmem)⟩
      · rw [if_neg hk] at hl
        by_cases ho2 : v2.IsOutput = true
        · simp only [MarshalPropertiesWithUnknowns, ho2, if_true] at hm
          exact c4_top_level_output_skipped ctx rest opts k v fields unk hnd.2 hl ho hm
        · have ho2f : v2.IsOutput = false := by simpa using ho2
          simp only [MarshalPropertiesWithUnknowns, ho2f, Bool.false_eq_true,
            if_false] at hm
          rcases h1 : MarshalPropertyValue ctx v2 opts with f | ⟨mv, known⟩ <;>
            simp [h1] at hm
          rcases h2 : MarshalPropertiesWithUnknowns ctx rest opts with f | ⟨fs2, unk2⟩ <;>
            simp [h2] at hm
          obtain ⟨hf, hu⟩ :=
            c4_top_level_output_skipped ctx rest opts k v fs2 unk2 hnd.2 hl ho h2
          rw [← hm.1, ← hm.2]
          constructor
          · intro hmem
            simp only [WireStruct.keys, List.mem_cons] at hmem
            rcases hmem with rfl | hmem
            · exact hk rfl
            · exact hf hmem
          · intro hmem
            cases known with
            | true => exact hu (by simpa using hmem)
            | false =>
                simp only [Bool.false_eq_true, if_false, List.mem_cons] at hmem
                rcases hmem with rfl | hmem
                · exact hk rfl
                · exact hu hmem

/-- Witness for C4: key "a" holds an Output value next to an ordinary entry
"b"; marshaling emits only "b" and marks nothing unknown. -/
theorem c4_top_level_output_skipped_witness :
    MarshalPropertiesWithUnknowns none
      (.cons "a" (.output .null) (.cons "b" (.bool true) .empty)) {} =
      .ok (.cons "b" (.boolV true) .empty, []) ∧
    ("a" : PropertyKey) ∉ WireStruct.keys (.cons "b" (.boolV true) .empty) ∧
    ("a" : PropertyKey) ∉ ([] : List PropertyKey) :=
  ⟨rfl,
   c4_top_level_output_skipped none
     (.cons "a" (.output .null) (.cons "b" (.bool true) .empty)) {} "a"
     (.output .null) (.cons "b" (.boolV true) .empty) [] (by decide) rfl rfl rfl⟩

/-- Counterexample to claim C5 as stated: a map holding only a Resource value
(no Computed, no Output anywhere) does not make MarshalProperties succeed:
resolving the URN with a nil context is a fatal fault, so the claimed
unconditional success on Computed/Output-free maps is false. -/
theorem c5_counterexample_resource_faults :
    PropertyMap.noComputedOrOutput (.cons "k" (.resource "u") .empty) = true ∧
    MarshalProperties none (.cons "k" (.resource "u") .empty) {} =
      .error (.nilContext "u") :=
  ⟨rfl, rfl⟩

/-- Claim C5 (amended): MarshalProperties on a map whose tree contains a
Computed value (at a root or nested through arrays/objects) never returns a
wire struct, and whenever the underlying marshal itself succeeds the fault is
specifically the final-marshal assertion on the unknown-key set; on a map
with no Computed and no Output anywhere whose value-level marshaling succeeds
(e.g. every Resource resolves), it returns a wire struct containing every
original key. -/
theorem c5_final_marshal_assertion :
    ∀ (ctx : Option Context) (m : PropertyMap) (opts : MarshalOptions),
      (m.containsComputed = true →
        ∀ fields unk, MarshalPropertiesWithUnknowns ctx m opts = .ok (fields, unk) →
          MarshalProperties ctx m opts = .error .finalMarshalUnknowns) ∧
      (m.containsComputed = true →
        ∀ ws, MarshalProperties ctx m opts ≠ .ok ws) ∧
      (m.noComputedOrOutput = true →
        ∀ fields unk, MarshalPropertiesWithUnknowns ctx m opts = .ok (fields, unk) →
          MarshalProperties ctx m opts = .ok fields ∧
          WireStruct.keys fields = m.keys) := by
  intro ctx m opts
  have h1 : m.containsComputed = true →
      ∀ fields unk, MarshalPropertiesWithUnknowns ctx m opts = .ok (fields, unk) →
        MarshalProperties ctx m opts = .error .finalMarshalUnknowns := by
    intro hc fields unk hm
    have hne := containsComputed_map_unknowns m ctx opts fields unk hc hm
    have hemp : unk.isEmpty = false := by
      cases unk with
      | nil => exact absurd rfl hne
      | cons a t => rfl
    simp [MarshalProperties, hm, hemp]
  refine ⟨h1, ?_, ?_⟩
  · intro hc ws hok
    rcases h : MarshalPropertiesWithUnknowns ctx m opts with f | ⟨fields, unk⟩
    · simp [MarshalProperties, h] at hok
    · rw [h1 hc fields unk h] at hok
      exact Except.noConfusion hok
  · intro hn fields unk hm
    obtain ⟨hu, hk⟩ := noCompOut_map_marshal m ctx opts fields unk hn hm
    subst hu
    exact ⟨by simp [MarshalProperties, hm], hk⟩

/-- Witness for C5: a map with a Computed entry trips the final-marshal
assertion; a Computed/Output-free map that marshals cleanly succeeds with all
its keys present. -/
theorem c5_final_marshal_assertion_witness :
    MarshalProperties none (.cons "a" (.computed .null) .empty) {} =
      .error .finalMarshalUnknowns ∧
    MarshalProperties none (.cons "b" (.bool true) .empty) {} =
      .ok (.cons "b" (.boolV true) .empty) ∧
    WireStruct.keys (.cons "b" (.boolV true) .empty) =
      PropertyMap.keys (.cons "b" (.bool true) .empty) := by
  have ha := c5_final_marshal_assertion none (.cons "a" (.computed .null) .empty) {}
  have hb := c5_final_marshal_assertion none (.cons "b" (.bool true) .empty) {}
  exact ⟨ha.1 rfl (.cons "a" .nullV .empty) ["a"] rfl,
    (hb.2.2 rfl (.cons "b" (.boolV true) .empty) [] rfl).1,
    (hb.2.2 rfl (.cons "b" (.boolV true) .empty) [] rfl).2⟩

/-- Claim C2 (spec-modelled Context): resolution of a Resource value carrying
URN u by MarshalPropertyValue.  With RawURNs the raw URN text is emitted as a
wire string; otherwise the URN is looked up among current resources and the
resource's provider ID is used; otherwise, with PermitOlds, a prior-deployment
ID is used; otherwise the URN is a fatal fault.  An empty resolved ID is a
fatal fault, a nil context in non-raw mode is a fatal fault, and a successful
result is always reported known. -/
theorem c2_resource_resolution :
    ∀ (u : URN) (opts : MarshalOptions) (ctx : Option Context),
      (opts.RawURNs = true →
        MarshalPropertyValue ctx (.resource u) opts = .ok (.stringV u, true)) ∧
      (opts.RawURNs = false →
        MarshalPropertyValue none (.resource u) opts = .error (.nilContext u)) ∧
      (∀ c : Context, opts.RawURNs = false → ctx = some c →
        (∀ r, c.URNRes u = some r → r.id ≠ "" →
          MarshalPropertyValue ctx (.resource u) opts = .ok (.stringV r.id, true)) ∧
        (∀ r, c.URNRes u = some r → r.id = "" →
          MarshalPropertyValue ctx (.resource u) opts = .error (.emptyID u)) ∧
        (c.URNRes u = none → opts.PermitOlds = true →
          ∀ i, c.URNOldIDs u = some i → i ≠ "" →
            MarshalPropertyValue ctx (.resource u) opts = .ok (.stringV i, true)) ∧
        (c.URNRes u = none → opts.PermitOlds = true →
          ∀ i, c.URNOldIDs u = some i → i = "" →
            MarshalPropertyValue ctx (.resource u) opts = .error (.emptyID u)) ∧
        (c.URNRes u = none → (opts.PermitOlds = false ∨ c.URNOldIDs u = none) →
          MarshalPropertyValue ctx (.resource u) opts = .error (.urnNotFound u))) ∧
      (∀ w kn, MarshalPropertyValue ctx (.resource u) opts = .ok (w, kn) →
        kn = true) := by
  intro u opts ctx
  refine ⟨?_, ?_, ?_, fun w kn => marshal_resource_known ctx opts u w kn⟩
  · intro hraw
    simp [MarshalPropertyValue, hraw]
  · intro hraw
    simp [MarshalPropertyValue, hraw]
  · intro c hraw hctx
    subst hctx
    refine ⟨?_, ?_, ?_, ?_, ?_⟩
    · intro r hres hid
      simp [MarshalPropertyValue, hraw, hres, hid]
    · intro r hres hid
      simp [MarshalPropertyValue, hraw, hres, hid]
    · intro hres hpo i hold hid
      simp [MarshalPropertyValue, hraw, hres, hpo, hold, hid]
    · intro hres hpo i hold hid
      simp [MarshalPropertyValue, hraw, hres, hpo, hold, hid]
    · intro hres hcase
      rcases hcase with hpo | hold
      · rcases hb : c.URNOldIDs u with - | i <;>
          simp [MarshalPropertyValue, hraw, hres, hpo, hb]
      · simp [MarshalPropertyValue, hraw, hres, hold]

/-- Witness for C2 on the example context: raw emission, current-resource
resolution to "i-123", prior-ID resolution to "i-old", the not-found fault,
and the nil-context fault. -/
theorem c2_resource_resolution_witness :
    MarshalPropertyValue (some exampleContext) (.resource "u1") ⟨false, true⟩ =
      .ok (.stringV "u1", true) ∧
    MarshalPropertyValue (some exampleContext) (.resource "u1") {} =
      .ok (.stringV "i-123", true) ∧
    MarshalPropertyValue (some exampleContext) (.resource "old") ⟨true, false⟩ =
      .ok (.stringV "i-old", true) ∧
    MarshalPropertyValue (some exampleContext) (.resource "zzz") {} =
      .error (.urnNotFound "zzz") ∧
    MarshalPropertyValue none (.resource "u1") {} = .error (.nilContext "u1") := by
  have h1 := c2_resource_resolution "u1" ⟨false, true⟩ (some exampleContext)
  have h2 := c2_resource_resolution "u1" {} (some exampleContext)
  have h3 := c2_resource_resolution "old" ⟨true, false⟩ (some exampleContext)
  have h4 := c2_resource_resolution "zzz" {} (some exampleContext)
  have h5 := c2_resource_resolution "u1" {} none
  refine ⟨h1.1 rfl, ?_, ?_, ?_, h5.2.1 rfl⟩
  · exact (h2.2.2.1 exampleContext rfl rfl).1 ⟨"i-123"⟩ rfl (by decide)
  · exact (h3.2.2.1 exampleContext rfl rfl).2.2.1 rfl rfl "i-old" rfl (by decide)
  · exact (h4.2.2.1 exampleContext rfl rfl).2.2.2.2 rfl (Or.inl rfl)

/-- Claim C8: the known flag of MarshalPropertyValue: Null/Bool/Number/String
and Resource values are always reported known; an Array is known exactly when
every element marshals known; Computed and Output marshal by unwrapping the
eventual placeholder and are always reported unknown, whatever the
placeholder's own flag was. -/
theorem c8_known_flag :
    ∀ (ctx : Option Context) (opts : MarshalOptions),
      (MarshalPropertyValue ctx .null opts = .ok (.nullV, true)) ∧
      (∀ b, MarshalPropertyValue ctx (.bool b) opts = .ok (.boolV b, true)) ∧
      (∀ n, MarshalPropertyValue ctx (.number n) opts = .ok (.numberV n, true)) ∧
      (∀ s, MarshalPropertyValue ctx (.str s) opts = .ok (.stringV s, true)) ∧
      (∀ u w kn, MarshalPropertyValue ctx (.resource u) opts = .ok (w, kn) →
        kn = true) ∧
      (∀ l w kn, MarshalPropertyValue ctx (.array l) opts = .ok (w, kn) →
        (kn = true ↔
          ∀ e ∈ l.toList, ∃ we, MarshalPropertyValue ctx e opts = .ok (we, true))) ∧
      (∀ ev w k0, MarshalPropertyValue ctx ev opts = .ok (w, k0) →
        MarshalPropertyValue ctx (.computed ev) opts = .ok (w, false) ∧
        MarshalPropertyValue ctx (.output ev) opts = .ok (w, false)) := by
  intro ctx opts
  refine ⟨rfl, fun _ => rfl, fun _ => rfl, fun _ => rfl,
    fun u w kn => marshal_resource_known ctx opts u w kn, ?_, ?_⟩
  · intro l w kn hm
    rcases h : MarshalPropertyValueElems ctx l opts with f | ⟨ws, oc⟩ <;>
      simp [MarshalPropertyValue, h] at hm
    rw [← hm.2]
    exact marshal_elems_known_iff l ctx opts ws oc h
  · intro ev w k0 hm
    constructor <;> simp [MarshalPropertyValue, hm]

/-- Witness for C8: unwrapping marks Computed and Output unknown at a
concrete input, and the array criterion holds at a concrete singleton. -/
theorem c8_known_flag_witness :
    MarshalPropertyValue none (.computed .null) {} = .ok (.nullV, false) ∧
    MarshalPropertyValue none (.output .null) {} = .ok (.nullV, false) ∧
    ((true : Bool) = true ↔
      ∀ e ∈ (PVList.cons (.bool true) .nil).toList,
        ∃ we, MarshalPropertyValue none e {} = .ok (we, true)) := by
  have h := c8_known_flag none {}
  refine ⟨(h.2.2.2.2.2.2 .null .nullV true rfl).1,
    (h.2.2.2.2.2.2 .null .nullV true rfl).2,
    h.2.2.2.2.2.1 (.cons (.bool true) .nil)
      (.listV (.cons (.boolV true) .nil)) true rfl⟩

theorem sortByKey_of_keysAscending :
    ∀ (m : PropertyMap), m.keysAscending = true → m.sortByKey = m
  | .empty, _ => rfl
  | .cons _ _ .empty, _ => rfl
  | .cons k v (.cons k2 v2 r), h => by
      simp only [PropertyMap.keysAscending, Bool.and_eq_true] at h
      have ih := sortByKey_of_keysAscending (.cons k2 v2 r) h.2
      have hle : keyLe k k2 = true := by simp [keyLe, h.1]
      simp only [PropertyMap.sortByKey] at ih ⊢
      rw [ih]
      simp only [PropertyMap.insertSorted]
      rw [if_pos hle]

mutual

theorem roundtrip_value :
    ∀ (v : PropertyValue) (ctx : Option Context) (opts : MarshalOptions),
      v.IsPureJSON = true → v.canonicalKeys = true →
      ∃ w, MarshalPropertyValue ctx v opts = .ok (w, true) ∧
        UnmarshalWireValue w = .ok v
  | .null, _, _, _, _ => ⟨.nullV, rfl, rfl⟩
  | .bool b, _, _, _, _ => ⟨.boolV b, rfl, rfl⟩
  | .number n, _, _, _, _ => ⟨.numberV n, rfl, rfl⟩
  | .str s, _, _, _, _ => ⟨.stringV s, rfl, rfl⟩
  | .resource _, _, _, hp, _ => by simp [PropertyValue.IsPureJSON] at hp
  | .computed _, _, _, hp, _ => by simp [PropertyValue.IsPureJSON] at hp
  | .output _, _, _, hp, _ => by simp [PropertyValue.IsPureJSON] at hp
  | .array l, ctx, opts, hp, hc => by
      simp only [PropertyValue.IsPureJSON] at hp
      simp only [PropertyValue.canonicalKeys] at hc
      obtain ⟨ws, hm, hu⟩ := roundtrip_elems l ctx opts hp hc
      exact ⟨.listV ws, by simp [MarshalPropertyValue, hm],
        by simp [UnmarshalWireValue, hu]⟩
  | .object m, ctx, opts, hp, hc => by
      simp only [PropertyValue.IsPureJSON] at hp
      simp only [PropertyValue.canonicalKeys, Bool.and_eq_true] at hc
      obtain ⟨fs, hm, hu⟩ := roundtrip_map m ctx opts hp hc.2
      refine ⟨.structV fs, by simp [MarshalPropertyValue, hm], ?_⟩
      simp [UnmarshalWireValue, hu, sortByKey_of_keysAscending m hc.1]

theorem roundtrip_elems :
    ∀ (l : PVList) (ctx : Option Context) (opts : MarshalOptions),
      PVList.IsPureJSON l = true → PVList.canonicalKeys l = true →
      ∃ ws, MarshalPropertyValueElems ctx l opts = .ok (ws, true) ∧
        UnmarshalWireValueElems ws = .ok l
  | .nil, _, _, _, _ => ⟨.nil, rfl, rfl⟩
  | .cons e rest, ctx, opts, hp, hc => by
      simp only [PVList.IsPureJSON, Bool.and_eq_true] at hp
      simp only [PVList.canonicalKeys, Bool.and_eq_true] at hc
      obtain ⟨we, hm1, hu1⟩ := roundtrip_value e ctx opts hp.1 hc.1
      obtain ⟨ws, hm2, hu2⟩ := roundtrip_elems rest ctx opts hp.2 hc.2
      exact ⟨.cons we ws, by simp [MarshalPropertyValueElems, hm1, hm2],
        by simp [UnmarshalWireValueElems, hu1, hu2]⟩

theorem roundtrip_map :
    ∀ (m : PropertyMap) (ctx : Option Context) (opts : MarshalOptions),
      PropertyMap.IsPureJSON m = true → PropertyMap.canonicalKeys m = true →
      ∃ fs, MarshalPropertiesWithUnknowns ctx m opts = .ok (fs, []) ∧
        UnmarshalWireStructFields fs = .ok m
  | .empty, _, _, _, _ => ⟨.empty, rfl, rfl⟩
  | .cons k v rest, ctx, opts, hp, hc => by
      simp only [PropertyMap.IsPureJSON, Bool.and_eq_true] at hp
      simp only [PropertyMap.canonicalKeys, Bool.and_eq_true] at hc
      obtain ⟨w, hm1, hu1⟩ := roundtrip_value v ctx opts hp.1 hc.1
      obtain ⟨fs, hm2, hu2⟩ := roundtrip_map rest ctx opts hp.2 hc.2
      have ho : v.IsOutput = false := pureJSON_not_output v hp.1
      exact ⟨.cons k w fs,
        by simp [MarshalPropertiesWithUnknowns, ho, hm1, hm2],
        by simp [UnmarshalWireStructFields, hu1, hu2]⟩

end

/-- Claim C3: for a property map containing no Resource, Computed, or Output
variant anywhere (and in canonical Go-map form: unique keys in stable sorted
order, recursively), unmarshaling the result of marshaling with default
options reproduces the map exactly, for every context. -/
theorem c3_pure_round_trip :
    ∀ (ctx : Option Context) (m : PropertyMap),
      m.IsPureJSON = true → m.keysAscending = true → m.canonicalKeys = true →
      ∃ fs, MarshalPropertiesWithUnknowns ctx m {} = .ok (fs, []) ∧
        UnmarshalProperties (some fs) = .ok m := by
  intro ctx m hp hasc hc
  obtain ⟨fs, hm, hu⟩ := roundtrip_map m ctx {} hp hc
  exact ⟨fs, hm,
    by simp [UnmarshalProperties, hu, sortByKey_of_keysAscending m hasc]⟩

/-- Witness for C3 at a concrete nested pure map. -/
theorem c3_pure_round_trip_witness :
    ∃ fs,
      MarshalPropertiesWithUnknowns none
        (.cons "a" (.bool true)
          (.cons "b" (.array (.cons (.number 1)
            (.cons (.object (.cons "c" (.str "s") .empty)) .nil))) .empty)) {} =
        .ok (fs, []) ∧
      UnmarshalProperties (some fs) =
        .ok (.cons "a" (.bool true)
          (.cons "b" (.array (.cons (.number 1)
            (.cons (.object (.cons "c" (.str "s") .empty)) .nil))) .empty)) :=
  c3_pure_round_trip none
    (.cons "a" (.bool true)
      (.cons "b" (.array (.cons (.number 1)
        (.cons (.object (.cons "c" (.str "s") .empty)) .nil))) .empty))
    (by decide) (by decide) (by decide)

end Lumi
